import Mathlib

/-!
Verification of the Connect Four game core and its MCTS engine.

The definitions below are a shallow embedding of `src/game.rs` and
`src/mcts.rs`.  The Rust `HashMap<(usize, usize), Token>` board is
modelled as an association list with unique keys (insertion erases any
previous binding, so lengths agree with `HashMap::len`), the
`[usize; NUM_COLS]` array as a `List Nat` of length `NUM_COLS`, and the
`f32` statistics of tree nodes as rationals (the program only ever adds
`±1`, `0` and `1` to them, which `f32` represents exactly in the
reachable range).  A Rust panic is modelled by `Option.none` in the
result of the corresponding operation.
-/

def NUM_COLS : Nat := 7

def NUM_ROWS : Nat := 6

inductive Token where
  | OWN
  | OPPONENT
deriving DecidableEq, Repr

inductive Player where
  | A
  | B
deriving DecidableEq, Repr

/-- Relabelling performed on every cell by `Game::next_player`. -/
def Token.flip : Token → Token
  | Token.OWN => Token.OPPONENT
  | Token.OPPONENT => Token.OWN

/-- The other player, as computed by the match in `Game::next_player`. -/
def Player.other : Player → Player
  | Player.A => Player.B
  | Player.B => Player.A

structure Game where
  num_stones : List Nat
  state : List ((Nat × Nat) × Token)
  current_player : Player
deriving DecidableEq, Repr

/-- Model of `HashMap::get` on the board: first binding of the key. -/
def lookupCell (k : Nat × Nat) : List ((Nat × Nat) × Token) → Option Token
  | [] => none
  | p :: s => if p.1 = k then some p.2 else lookupCell k s

/-- Model of `HashMap::insert`: any previous binding of the key is
dropped, so the list length tracks `HashMap::len`. -/
def insertCell (k : Nat × Nat) (v : Token) (s : List ((Nat × Nat) × Token)) :
    List ((Nat × Nat) × Token) :=
  (k, v) :: s.filter (fun p => decide (p.1 ≠ k))

/-- Model of `Game::new`. -/
def Game.new : Game :=
  { num_stones := List.replicate NUM_COLS 0
    state := []
    current_player := Player.A }

/-- Test used throughout the win checkers:
`self.state.get(&(c, r)) == Some(&Token::OWN)`. -/
def ownAt (g : Game) (c r : Nat) : Bool :=
  decide (lookupCell (c, r) g.state = some Token.OWN)

/-- Model of `Game::check_horizontal`. -/
def Game.check_horizontal (g : Game) : Bool :=
  (List.range (NUM_COLS - 3)).any fun col =>
    (List.range (g.num_stones.getD col 0)).any fun row =>
      ownAt g col row && ownAt g (col + 1) row && ownAt g (col + 2) row
        && ownAt g (col + 3) row

/-- Model of `Game::check_vertical`. -/
def Game.check_vertical (g : Game) : Bool :=
  (List.range NUM_COLS).any fun col =>
    if g.num_stones.getD col 0 ≤ 3 then false
    else (List.range (g.num_stones.getD col 0 - 3)).any fun row =>
      ownAt g col row && ownAt g col (row + 1) && ownAt g col (row + 2)
        && ownAt g col (row + 3)

/-- Model of `Game::check_diag_fall`. -/
def Game.check_diag_fall (g : Game) : Bool :=
  (List.range (NUM_COLS - 3)).any fun col =>
    if g.num_stones.getD col 0 ≤ 3 then false
    else (List.range' 3 (g.num_stones.getD col 0 - 3)).any fun row =>
      ownAt g col row && ownAt g (col + 1) (row - 1) && ownAt g (col + 2) (row - 2)
        && ownAt g (col + 3) (row - 3)

/-- Model of `Game::check_diag_rise`. -/
def Game.check_diag_rise (g : Game) : Bool :=
  (List.range (NUM_COLS - 3)).any fun col =>
    (List.range (g.num_stones.getD col 0)).any fun row =>
      ownAt g col row && ownAt g (col + 1) (row + 1) && ownAt g (col + 2) (row + 2)
        && ownAt g (col + 3) (row + 3)

/-- Model of `Game::is_win`. -/
def Game.is_win (g : Game) : Bool :=
  g.check_horizontal || g.check_vertical || g.check_diag_rise || g.check_diag_fall

/-- Model of `Game::is_terminal`. -/
def Game.is_terminal (g : Game) : Bool :=
  g.is_win || (g.state.length == NUM_COLS * NUM_ROWS)

/-- Model of `Game::play_move`.  The Rust function evaluates `self.num_stones[col]`
before its own range test, so a column index `≥ NUM_COLS` panics (modelled
by `none`); otherwise the returned pair carries the Rust return value and
the updated state. -/
def Game.play_move (g : Game) (col : Nat) : Option (Option Nat × Game) :=
  if col < NUM_COLS then
    let row := g.num_stones.getD col 0
    if NUM_ROWS ≤ row ∨ NUM_COLS ≤ col then some (none, g)
    else some (some row,
      { g with num_stones := g.num_stones.set col (row + 1),
               state := insertCell (col, row) Token.OWN g.state })
  else none

/-- Model of `Game::next_player`. -/
def Game.next_player (g : Game) : Game :=
  { g with current_player := g.current_player.other,
           state := g.state.map (fun p => (p.1, p.2.flip)) }

/-- Model of `Game::legal_moves`. -/
def Game.legal_moves (g : Game) : List Nat :=
  if g.is_terminal then []
  else (g.num_stones.enum.filter (fun p => decide (p.2 < NUM_ROWS))).map Prod.fst

/-- State reached by a Rust statement `g.play_move(c);` that discards the
returned row: the game is mutated when the move succeeds, untouched when
it is refused (a panicking call has no successor state and is not used
with this helper). -/
def Game.playD (g : Game) (c : Nat) : Game :=
  match g.play_move c with
  | some pr => pr.2
  | none => g

/-- Board after three drops into column 3 from a fresh game (the
`test_vertical` scenario before the winning stone). -/
def gameV3 : Game :=
  ((Game.new.playD 3).playD 3).playD 3

/-- Board after four drops into column 3 from a fresh game. -/
def gameV4 : Game :=
  gameV3.playD 3

/-- Games reachable from `Game::new` by any sequence of (non-panicking)
`play_move` and `next_player` calls. -/
inductive Reachable : Game → Prop
  | new : Reachable Game.new
  | play (g g' : Game) (c : Nat) (res : Option Nat) :
      Reachable g → g.play_move c = some (res, g') → Reachable g'
  | next (g : Game) : Reachable g → Reachable g.next_player

/-- Structural invariant of the board: the column array has its fixed
length, no column overflows, the occupied cells are exactly the positions
below the column heights, and the map size is the total stone count. -/
def GameInv (g : Game) : Prop :=
  g.num_stones.length = NUM_COLS ∧
  (∀ c, g.num_stones.getD c 0 ≤ NUM_ROWS) ∧
  (∀ c r, (lookupCell (c, r) g.state).isSome = true ↔ r < g.num_stones.getD c 0) ∧
  g.state.length = g.num_stones.sum

/-- Board with column 0 filled to the top by six successful drops. -/
def gameFull0 : Game :=
  (((((Game.new.playD 0).playD 0).playD 0).playD 0).playD 0).playD 0

/-- Modelled from the spec: four `Own` cells in a contiguous horizontal run. -/
def specHorizontalWin (g : Game) : Prop :=
  ∃ c r, ownAt g c r = true ∧ ownAt g (c + 1) r = true ∧
    ownAt g (c + 2) r = true ∧ ownAt g (c + 3) r = true

/-- Modelled from the spec: four `Own` cells in a contiguous vertical run. -/
def specVerticalWin (g : Game) : Prop :=
  ∃ c r, ownAt g c r = true ∧ ownAt g c (r + 1) = true ∧
    ownAt g c (r + 2) = true ∧ ownAt g c (r + 3) = true

/-- Modelled from the spec: four `Own` cells on a contiguous rising diagonal. -/
def specDiagRiseWin (g : Game) : Prop :=
  ∃ c r, ownAt g c r = true ∧ ownAt g (c + 1) (r + 1) = true ∧
    ownAt g (c + 2) (r + 2) = true ∧ ownAt g (c + 3) (r + 3) = true

/-- Modelled from the spec: four `Own` cells on a contiguous falling diagonal
(anchored at its bottom-right cell `(c + 3, r)`). -/
def specDiagFallWin (g : Game) : Prop :=
  ∃ c r, ownAt g c (r + 3) = true ∧ ownAt g (c + 1) (r + 2) = true ∧
    ownAt g (c + 2) (r + 1) = true ∧ ownAt g (c + 3) r = true

/-- Modelled from the spec: some four `Own` cells are co-linear and
contiguous in one of the four directions. -/
def specWin (g : Game) : Prop :=
  specHorizontalWin g ∨ specVerticalWin g ∨ specDiagRiseWin g ∨ specDiagFallWin g

structure Node where
  value : ℚ
  visits : ℚ
  state : Game
deriving DecidableEq, Repr

/-- Model of `Node::new`. -/
def Node.new (g : Game) : Node :=
  { value := 0, visits := 0, state := g }

/-- Model of an `f32` value as it arises from dividing two finite
floats: finite, an infinity, or NaN. -/
inductive F32 where
  | fin (q : ℚ)
  | pinf
  | ninf
  | nan
deriving DecidableEq, Repr

def qcompare (a b : ℚ) : Ordering :=
  if a < b then Ordering.lt else if b < a then Ordering.gt else Ordering.eq

/-- Model of `f32::partial_cmp`: `none` exactly when an operand is NaN. -/
def F32.cmp : F32 → F32 → Option Ordering
  | F32.nan, _ => none
  | _, F32.nan => none
  | F32.fin a, F32.fin b => some (qcompare a b)
  | F32.fin _, F32.pinf => some Ordering.lt
  | F32.fin _, F32.ninf => some Ordering.gt
  | F32.pinf, F32.fin _ => some Ordering.gt
  | F32.pinf, F32.pinf => some Ordering.eq
  | F32.pinf, F32.ninf => some Ordering.gt
  | F32.ninf, F32.fin _ => some Ordering.lt
  | F32.ninf, F32.pinf => some Ordering.lt
  | F32.ninf, F32.ninf => some Ordering.eq

/-- Model of `f32` division for finite operands: `0.0 / 0.0` is NaN,
`x / 0.0` an infinity of the sign of `x`, anything else exact. -/
def fdiv (a b : ℚ) : F32 :=
  if b = 0 then
    (if a = 0 then F32.nan else if 0 < a then F32.pinf else F32.ninf)
  else F32.fin (a / b)

/-- Model of `Node::utility`. -/
def Node.utility (n : Node) : F32 :=
  fdiv n.value n.visits

/-- The constant `f32::MAX` as an exact rational: `(2²⁴ - 1) · 2¹⁰⁴`. -/
def F32MAX : ℚ := (2 ^ 24 - 1) * 2 ^ 104

/-- Model of `Node::ucb`, over the reals: the exact value of
`2.0 * (parent.visits.ln() / self.visits).sqrt() + self.value / self.visits`,
with the `self.visits == 0.0` early return of `f32::MAX`. -/
noncomputable def Node.ucb (n parent : Node) : ℝ :=
  if n.visits = 0 then (F32MAX : ℝ)
  else 2 * Real.sqrt (Real.log (parent.visits : ℝ) / (n.visits : ℝ)) +
    (n.value : ℝ) / (n.visits : ℝ)

structure Mcts where
  nodes : List Node
  edges : List (Nat × Nat × Nat)
  root : Nat
deriving DecidableEq, Repr

/-- Model of `Mcts::new`. -/
def Mcts.new : Mcts :=
  { nodes := [Node.new Game.new], edges := [], root := 0 }

/-- Node addressed by a petgraph `NodeIndex`; every index the program
uses is in range (out-of-range indexing would panic in Rust, and the
theorems below carry in-range hypotheses where it matters). -/
def Mcts.nodeD (t : Mcts) (i : Nat) : Node :=
  t.nodes.getD i (Node.new Game.new)

/-- Model of `neighbors_directed(n, Outgoing)` in iteration order: petgraph lists
neighbors in reverse order of edge insertion. -/
def Mcts.neighborsOut (t : Mcts) (n : Nat) : List Nat :=
  ((t.edges.filter (fun e => decide (e.1 = n))).map (fun e => e.2.1)).reverse

/-- Out-neighbors of a node in edge-insertion order. -/
def Mcts.childrenIns (t : Mcts) (n : Nat) : List Nat :=
  (t.edges.filter (fun e => decide (e.1 = n))).map (fun e => e.2.1)

/-- Model of `find_edge(a, b)` followed by reading the edge weight: petgraph walks
the adjacency list newest-edge first. -/
def Mcts.findEdgeLabel (t : Mcts) (a b : Nat) : Option Nat :=
  (t.edges.reverse.find? (fun e => decide (e.1 = a ∧ e.2.1 = b))).map (fun e => e.2.2)

/-- Accumulator loop of `Iterator::max_by` with a comparator that may
panic (`none`): the accumulator is replaced whenever the comparison does
not return `Greater`, so among equal maxima the last one wins. -/
def rustMaxByGo (cmp : Nat → Nat → Option Ordering) : Nat → List Nat → Option Nat
  | acc, [] => some acc
  | acc, y :: ys =>
    match cmp acc y with
    | none => none
    | some Ordering.gt => rustMaxByGo cmp acc ys
    | some _ => rustMaxByGo cmp y ys

/-- Model of `Iterator::max_by`: `none` models a panic inside the comparator,
`some none` the empty iterator. -/
def rustMaxBy (cmp : Nat → Nat → Option Ordering) : List Nat → Option (Option Nat)
  | [] => some none
  | x :: xs => (rustMaxByGo cmp x xs).map some

/-- Model of `Mcts::best_move`; `none` models a panic (empty child list, a NaN
utility comparison, or a missing root edge — each an `unwrap`). -/
def Mcts.best_move (t : Mcts) : Option (Nat × F32) :=
  match rustMaxBy (fun a b => F32.cmp (t.nodeD a).utility (t.nodeD b).utility)
      (t.neighborsOut t.root) with
  | none => none
  | some none => none
  | some (some best_child) =>
    match t.findEdgeLabel t.root best_child with
    | none => none
    | some lab => some (lab, (t.nodeD best_child).utility)

def modifyIdx (f : α → α) : Nat → List α → List α
  | _, [] => []
  | 0, a :: l => f a :: l
  | n + 1, a :: l => a :: modifyIdx f n l

/-- Model of `Mcts::backprop`: walk the path in order, adding the running reward
to each node's value and one to its visits, then negating the reward. -/
def Mcts.backprop : Mcts → List Nat → ℚ → Mcts
  | t, [], _ => t
  | t, n :: rest, v =>
    let upd := fun nd : Node => { nd with value := nd.value + v, visits := nd.visits + 1 }
    Mcts.backprop { t with nodes := modifyIdx upd n t.nodes } rest (-v)

/-- Reward computed in `Mcts::mcts_iteration` from the rollout result:
`1.0` when the winner equals the root snapshot's `current_player()`,
`-1.0` for the other player, and the initial `0.0` on a draw. -/
def Mcts.rewardValue (t : Mcts) (winner : Option Player) : ℚ :=
  match winner with
  | some w => if w = (t.nodeD t.root).state.current_player then 1 else -1
  | none => 0

/-- Descent loop of `Mcts::select`, with the randomized, float-guided
`select_next_child` abstracted as the oracle `pick`; `fuel` bounds the
walk (finite in the tree-shaped graphs the program builds). -/
def selectGo (pick : Nat → Option Nat) : Nat → Nat → List Nat
  | _, 0 => []
  | cur, fuel + 1 =>
    match pick cur with
    | none => []
    | some nxt => nxt :: selectGo pick nxt fuel

/-- Model of `Mcts::select`: the produced path starts at the root and extends
while the current node has a selected child. -/
def Mcts.select (t : Mcts) (pick : Nat → Option Nat) (fuel : Nat) : List Nat :=
  t.root :: selectGo pick t.root fuel

/-- One loop iteration of `Mcts::expand`: clone the node's snapshot,
switch the turn, drop the move, and append the child node together with
its labeled edge (`none` models the panic of an out-of-range drop). -/
def Mcts.addChild (t : Mcts) (node m : Nat) : Option Mcts :=
  match ((t.nodeD node).state.next_player).play_move m with
  | none => none
  | some pr => some { t with
      nodes := t.nodes ++ [Node.new pr.2],
      edges := t.edges ++ [(node, t.nodes.length, m)] }

def Mcts.expandGo : Mcts → Nat → List Nat → Option Mcts
  | t, _, [] => some t
  | t, node, m :: ms =>
    match t.addChild node m with
    | none => none
    | some t' => t'.expandGo node ms

/-- Model of `Mcts::expand`. -/
def Mcts.expand (t : Mcts) (node : Nat) : Option (Mcts × Bool) :=
  if (t.nodeD node).state.legal_moves = [] then some (t, false)
  else (t.expandGo node ((t.nodeD node).state.legal_moves)).map (fun t' => (t', true))

/-- Spec-side: the state of an expansion child — clone the snapshot,
switch the turn, drop the move (total; the fallback branch is never hit
on legal moves). -/
def childState (s : Game) (m : Nat) : Game :=
  match (s.next_player).play_move m with
  | some pr => pr.2
  | none => s.next_player

/-- Spec-side: the edges added by one expansion, one per legal move in
order, each from `node` to the next fresh node index and labeled with
the move. -/
def expandEdges (node base : Nat) : List Nat → List (Nat × Nat × Nat)
  | [] => []
  | m :: ms => (node, base, m) :: expandEdges node (base + 1) ms

/-- Spec-side utility of a child: the exact average reward. -/
def Mcts.utilQ (t : Mcts) (c : Nat) : ℚ :=
  (t.nodeD c).value / (t.nodeD c).visits

/-- Spec-side: the first child of the root in edge-insertion order whose
utility is maximal among the root's children. -/
def Mcts.specBestChild (t : Mcts) : Option Nat :=
  (t.childrenIns t.root).find?
    (fun c => (t.childrenIns t.root).all (fun d => decide (t.utilQ d ≤ t.utilQ c)))

/-- Spec-side: the node created for an expansion child. -/
def childNode (s : Game) (m : Nat) : Node :=
  Node.new (childState s m)

/-- The accumulator step of `max_by`: keep the current maximum unless the
new element compares at least as large (so later ties win). -/
def pickLater (u : Nat → ℚ) (acc y : Nat) : Nat :=
  if u y < u acc then acc else y

/-- Spec-side: the first element of `l` whose `u`-value is maximal. -/
def firstMaxBy (u : Nat → ℚ) (l : List Nat) : Option Nat :=
  l.find? (fun c => l.all (fun d => decide (u d ≤ u c)))

/-- A three-node tree (root with two visited children) used as a concrete
input for the `best_move` witnesses. -/
def mctsTri : Mcts :=
  { nodes := [Node.new Game.new,
      Node.mk 1 2 (childState Game.new 0),
      Node.mk 1 1 (childState Game.new 1)]
    edges := [(0, 1, 0), (0, 2, 1)]
    root := 0 }

/-- A two-node tree used as a concrete input for witnesses. -/
def mctsPair : Mcts :=
  { nodes := [Node.new Game.new, Node.new (childState Game.new 3)]
    edges := [(0, 1, 3)]
    root := 0 }

/-- The embedded game reproduces the outcomes of the repository's Rust
unit tests (`test_vertical`, `test_horizontal`, `test_diag_rise`,
`test_diag_fall`). -/
theorem model_matches_rust_tests :
    gameV3.is_win = false ∧ gameV4.is_win = true ∧
    ((((Game.new.playD 3).playD 4).playD 5).playD 6).is_win = true ∧
    (((Game.new.playD 3).playD 4).playD 5).is_win = false ∧
    (((((((((Game.new.playD 4).playD 5).playD 5).playD 6).playD 6).playD
      6).next_player.playD 3).playD 4).playD 5).is_win = false ∧
    ((((((((((Game.new.playD 4).playD 5).playD 5).playD 6).playD 6).playD
      6).next_player.playD 3).playD 4).playD 5).playD 6).is_win = true ∧
    ((((((((((Game.new.playD 3).playD 3).playD 3).playD 4).playD 4).playD
      5).next_player.playD 3).playD 4).playD 5).playD 6).is_win = true := by
  refine ⟨by decide, by decide, by decide, by decide, by decide, by decide, by decide⟩

theorem lookupCell_filter_ne (k k' : Nat × Nat) (s : List ((Nat × Nat) × Token))
    (h : k' ≠ k) :
    lookupCell k' (s.filter (fun p => decide (p.1 ≠ k))) = lookupCell k' s := by
  induction s with
  | nil => rfl
  | cons p s ih =>
    rw [List.filter_cons]
    by_cases hp : p.1 = k
    · rw [if_neg (by simp [hp]), ih]
      show _ = if p.1 = k' then some p.2 else lookupCell k' s
      rw [if_neg (fun hh : p.1 = k' => h (hh ▸ hp))]
    · rw [if_pos (by simp [hp])]
      show (if p.1 = k' then some p.2 else _) = if p.1 = k' then some p.2 else _
      by_cases hk' : p.1 = k'
      · rw [if_pos hk', if_pos hk']
      · rw [if_neg hk', if_neg hk', ih]

theorem lookupCell_insertCell (k k' : Nat × Nat) (v : Token)
    (s : List ((Nat × Nat) × Token)) :
    lookupCell k' (insertCell k v s) =
      if k' = k then some v else lookupCell k' s := by
  show (if k = k' then some v else _) = _
  by_cases h : k' = k
  · rw [if_pos h.symm, if_pos h]
  · rw [if_neg (fun hh => h hh.symm), if_neg h, lookupCell_filter_ne k k' s h]

theorem lookupCell_map_flip (k : Nat × Nat) (s : List ((Nat × Nat) × Token)) :
    lookupCell k (s.map (fun p => (p.1, p.2.flip))) =
      (lookupCell k s).map Token.flip := by
  induction s with
  | nil => rfl
  | cons p s ih =>
    show (if p.1 = k then some p.2.flip else _) = _
    by_cases h : p.1 = k
    · rw [if_pos h]
      show _ = Option.map Token.flip (if p.1 = k then some p.2 else _)
      rw [if_pos h, Option.map_some']
    · rw [if_neg h, ih]
      show _ = Option.map Token.flip (if p.1 = k then some p.2 else _)
      rw [if_neg h]

theorem filter_ne_of_lookupCell_none (k : Nat × Nat) (s : List ((Nat × Nat) × Token))
    (h : lookupCell k s = none) :
    s.filter (fun p => decide (p.1 ≠ k)) = s := by
  induction s with
  | nil => rfl
  | cons p s ih =>
    rw [lookupCell] at h
    by_cases hp : p.1 = k
    · rw [if_pos hp] at h
      exact absurd h (by simp)
    · rw [if_neg hp] at h
      rw [List.filter_cons, if_pos (by simp [hp]), ih h]

theorem getD_set_self (l : List Nat) (i v : Nat) (h : i < l.length) :
    (l.set i v).getD i 0 = v := by
  induction l generalizing i with
  | nil => simp at h
  | cons a l ih =>
    cases i with
    | zero => rfl
    | succ j =>
      simp only [List.length_cons, Nat.succ_lt_succ_iff] at h
      simpa [List.set, List.getD] using ih j h

theorem getD_set_ne (l : List Nat) (i j v : Nat) (h : j ≠ i) :
    (l.set i v).getD j 0 = l.getD j 0 := by
  induction l generalizing i j with
  | nil => simp [List.set]
  | cons a l ih =>
    cases i with
    | zero =>
      cases j with
      | zero => exact absurd rfl h
      | succ j' => rfl
    | succ i' =>
      cases j with
      | zero => rfl
      | succ j' =>
        simpa [List.set, List.getD] using ih i' j' (fun hh => h (by simpa using hh))

theorem getD_zero_of_length_le (l : List Nat) (i : Nat) (h : l.length ≤ i) :
    l.getD i 0 = 0 := by
  induction l generalizing i with
  | nil => simp [List.getD]
  | cons a l ih =>
    cases i with
    | zero => simp at h
    | succ j =>
      simp only [List.length_cons, Nat.succ_le_succ_iff] at h
      simpa [List.getD] using ih j h

theorem lt_length_of_getD_pos (l : List Nat) (i : Nat) (h : 0 < l.getD i 0) :
    i < l.length := by
  by_contra hc
  rw [getD_zero_of_length_le l i (Nat.le_of_not_lt hc)] at h
  exact Nat.lt_irrefl 0 h

theorem sum_set_succ (l : List Nat) (i : Nat) (h : i < l.length) :
    (l.set i (l.getD i 0 + 1)).sum = l.sum + 1 := by
  induction l generalizing i with
  | nil => simp at h
  | cons a l ih =>
    cases i with
    | zero =>
      show (a + 1 + l.sum) = a + l.sum + 1
      omega
    | succ j =>
      simp only [List.length_cons, Nat.succ_lt_succ_iff] at h
      show (a + (l.set j ((a :: l).getD (j + 1) 0 + 1)).sum) = a + l.sum + 1
      have : (a :: l).getD (j + 1) 0 = l.getD j 0 := rfl
      rw [this, ih j h]
      omega

theorem getD_replicate_zero (n c : Nat) : (List.replicate n 0).getD c 0 = 0 := by
  induction n generalizing c with
  | zero => rfl
  | succ m ih =>
    cases c with
    | zero => rfl
    | succ c' => exact ih c'

theorem inv_new : GameInv Game.new := by
  refine ⟨by simp [Game.new, NUM_COLS], fun c => ?_, fun c r => ?_, by simp [Game.new]⟩
  · rw [Game.new, getD_replicate_zero]
    exact Nat.zero_le _
  · rw [Game.new]
    simp [lookupCell, getD_replicate_zero]

theorem inv_play_move (g g' : Game) (c : Nat) (res : Option Nat)
    (hinv : GameInv g) (h : g.play_move c = some (res, g')) : GameInv g' := by
  obtain ⟨hlen, hle, hkeys, hsum⟩ := hinv
  rw [Game.play_move] at h
  by_cases hc : c < NUM_COLS
  · rw [if_pos hc] at h
    by_cases hfull : NUM_ROWS ≤ g.num_stones.getD c 0 ∨ NUM_COLS ≤ c
    · rw [if_pos hfull] at h
      obtain ⟨-, rfl⟩ := Prod.mk.injEq .. ▸ Option.some.injEq .. ▸ h
      exact ⟨hlen, hle, hkeys, hsum⟩
    · rw [if_neg hfull] at h
      push_neg at hfull
      obtain ⟨hrow, -⟩ := hfull
      obtain ⟨-, rfl⟩ := Prod.mk.injEq .. ▸ Option.some.injEq .. ▸ h
      have hclen : c < g.num_stones.length := hlen ▸ hc
      refine ⟨by simpa using hlen, fun c' => ?_, fun c' r => ?_, ?_⟩
      · by_cases hcc : c' = c
        · subst hcc
          rw [getD_set_self _ _ _ hclen]
          omega
        · rw [getD_set_ne _ _ _ _ hcc]
          exact hle c'
      · rw [lookupCell_insertCell]
        by_cases hkey : (c', r) = (c, g.num_stones.getD c 0)
        · obtain ⟨hc', hr⟩ := Prod.mk.injEq .. ▸ hkey
          subst hc'
          rw [if_pos (by rw [hr]), getD_set_self _ _ _ hclen]
          simp [hr]
        · rw [if_neg hkey]
          by_cases hcc : c' = c
          · subst hcc
            have hrne : r ≠ g.num_stones.getD c' 0 := fun hr => hkey (by rw [hr])
            rw [getD_set_self _ _ _ hclen, hkeys c' r]
            omega
          · rw [getD_set_ne _ _ _ _ hcc]
            exact hkeys c' r
      · have hnone : lookupCell (c, g.num_stones.getD c 0) g.state = none := by
          have := hkeys c (g.num_stones.getD c 0)
          cases hl : lookupCell (c, g.num_stones.getD c 0) g.state with
          | none => rfl
          | some t =>
            rw [hl] at this
            exact absurd (this.mp rfl) (Nat.lt_irrefl _)
        show (insertCell _ _ g.state).length = _
        rw [insertCell, List.length_cons, filter_ne_of_lookupCell_none _ _ hnone,
          sum_set_succ _ _ hclen, hsum]
  · rw [if_neg hc] at h
    exact absurd h (by simp)

theorem inv_next_player (g : Game) (hinv : GameInv g) : GameInv g.next_player := by
  obtain ⟨hlen, hle, hkeys, hsum⟩ := hinv
  refine ⟨hlen, hle, fun c r => ?_,
    by show (g.state.map _).length = _; rw [List.length_map]; exact hsum⟩
  show (lookupCell (c, r) (g.state.map _)).isSome = true ↔ _
  rw [lookupCell_map_flip, Option.isSome_map']
  exact hkeys c r

theorem reachable_inv (g : Game) (h : Reachable g) : GameInv g := by
  induction h with
  | new => exact inv_new
  | play g g' c res _ hmove ih => exact inv_play_move g g' c res ih hmove
  | next g _ ih => exact inv_next_player g ih

/-- C1: dropping into a full in-range column returns `None` ("no move
made") and leaves the state unchanged, but an out-of-range column does
not: `play_move` evaluates `self.num_stones[col]` before its own
`col >= NUM_COLS` test, so the indexing panics (modelled by `none`)
instead of returning `None` with the board unchanged. -/
theorem c1_play_move_out_of_range_panics :
    Game.new.play_move NUM_COLS = none ∧
    gameFull0.num_stones.getD 0 0 = NUM_ROWS ∧
    gameFull0.play_move 0 = some (none, gameFull0) := by
  refine ⟨rfl, by decide, by decide⟩

/-- C4: `next_player` flips the active player between the two
identities, relabels every cell by `Token.flip` (`Own` becomes
`Opponent` and vice versa), and changes nothing else: the column
heights, the set of occupied positions and the number of occupied
cells are all preserved. -/
theorem c4_next_player_flips (g : Game) :
    g.next_player.current_player = g.current_player.other ∧
    Player.A.other = Player.B ∧ Player.B.other = Player.A ∧
    Token.OWN.flip = Token.OPPONENT ∧ Token.OPPONENT.flip = Token.OWN ∧
    (∀ k, lookupCell k g.next_player.state = (lookupCell k g.state).map Token.flip) ∧
    g.next_player.num_stones = g.num_stones ∧
    (∀ k, (lookupCell k g.next_player.state).isSome = (lookupCell k g.state).isSome) ∧
    g.next_player.state.length = g.state.length := by
  refine ⟨rfl, rfl, rfl, rfl, rfl, fun k => lookupCell_map_flip k g.state, rfl,
    fun k => ?_, List.length_map _ _⟩
  rw [show g.next_player.state = g.state.map (fun p => (p.1, p.2.flip)) from rfl,
    lookupCell_map_flip, Option.isSome_map']

/-- C9: in every reachable game the occupied cells are exactly the
positions strictly below their column's height, no column height
exceeds `NUM_ROWS`, and the size of the cell map equals the sum of the
column heights. -/
theorem c9_reachable_board_invariant (g : Game) (h : Reachable g) :
    (∀ c r, (lookupCell (c, r) g.state).isSome = true ↔ r < g.num_stones.getD c 0) ∧
    (∀ c, g.num_stones.getD c 0 ≤ NUM_ROWS) ∧
    g.state.length = g.num_stones.sum := by
  obtain ⟨-, hle, hkeys, hsum⟩ := reachable_inv g h
  exact ⟨hkeys, hle, hsum⟩

theorem c9_reachable_board_invariant_witness :
    Reachable gameV4 ∧
    ((lookupCell (3, 2) gameV4.state).isSome = true ↔ 2 < gameV4.num_stones.getD 3 0) ∧
    gameV4.state.length = gameV4.num_stones.sum := by
  have r1 : Reachable (Game.new.playD 3) :=
    Reachable.play Game.new (Game.new.playD 3) 3 (some 0) Reachable.new (by decide)
  have r2 : Reachable ((Game.new.playD 3).playD 3) :=
    Reachable.play _ _ 3 (some 1) r1 (by decide)
  have r3 : Reachable gameV3 :=
    Reachable.play _ _ 3 (some 2) r2 (by decide)
  have r4 : Reachable gameV4 :=
    Reachable.play _ _ 3 (some 3) r3 (by decide)
  have h := c9_reachable_board_invariant gameV4 r4
  exact ⟨r4, h.1 3 2, h.2.2⟩

theorem enumFrom_filter_map_eq (l : List Nat) (n : Nat) :
    ((List.enumFrom n l).filter (fun p => decide (p.2 < NUM_ROWS))).map Prod.fst =
      (List.range' n l.length).filter (fun i => decide (l.getD (i - n) 0 < NUM_ROWS)) := by
  induction l generalizing n with
  | nil => rfl
  | cons a l ih =>
    have hcons : List.enumFrom n (a :: l) = (n, a) :: List.enumFrom (n + 1) l := rfl
    have hlen : (a :: l).length = l.length + 1 := rfl
    rw [hcons, List.filter_cons, hlen, List.range'_succ, List.filter_cons]
    have htail :
        (List.range' (n + 1) l.length).filter (fun i => decide ((a :: l).getD (i - n) 0 < NUM_ROWS)) =
          (List.range' (n + 1) l.length).filter (fun i => decide (l.getD (i - (n + 1)) 0 < NUM_ROWS)) := by
      apply List.filter_congr
      intro i hi
      obtain ⟨j, -, rfl⟩ := List.mem_range'.mp hi
      rw [show n + 1 + 1 * j - n = j + 1 by omega, show n + 1 + 1 * j - (n + 1) = j by omega]
      rfl
    by_cases ha : a < NUM_ROWS
    · rw [if_pos (by simpa using ha), if_pos (by simp [Nat.sub_self, ha]),
        List.map_cons, ih (n + 1), htail]
    · rw [if_neg (by simpa using ha), if_neg (by simp [Nat.sub_self, ha]),
        ih (n + 1), htail]

theorem exists_open_col (l : List Nat) (hlen : l.length = NUM_COLS)
    (hle : ∀ c, l.getD c 0 ≤ NUM_ROWS) (hsum : l.sum ≠ NUM_COLS * NUM_ROWS) :
    ∃ c, c < NUM_COLS ∧ l.getD c 0 < NUM_ROWS := by
  by_contra hc
  push_neg at hc
  have hall : ∀ x ∈ l, x = NUM_ROWS := by
    intro x hx
    obtain ⟨⟨i, hi⟩, rfl⟩ := List.mem_iff_get.mp hx
    have hgd : l.getD i 0 = l.get ⟨i, hi⟩ := by
      rw [List.getD_eq_getElem?_getD, List.getElem?_eq_getElem hi]
      rfl
    have hlt : i < NUM_COLS := hlen ▸ hi
    have := hc i hlt
    have := hle i
    omega
  have : l = List.replicate NUM_COLS NUM_ROWS := by
    have := List.eq_replicate_iff.mpr ⟨hlen, hall⟩
    exact this
  rw [this] at hsum
  exact hsum (by decide)

/-- C5: in every reachable game, `legal_moves` holds exactly the in-range
columns with height below `NUM_ROWS` (and only when the state is not
terminal), in strictly ascending order, and it is empty precisely when
the state is terminal. -/
theorem c5_legal_moves_spec (g : Game) (h : Reachable g) :
    (∀ c, c ∈ g.legal_moves ↔
      (g.is_terminal = false ∧ c < NUM_COLS ∧ g.num_stones.getD c 0 < NUM_ROWS)) ∧
    g.legal_moves.Pairwise (· < ·) ∧
    (g.legal_moves = [] ↔ g.is_terminal = true) := by
  obtain ⟨hlen, hle, hkeys, hsum⟩ := reachable_inv g h
  by_cases hterm : g.is_terminal
  · rw [Game.legal_moves, if_pos hterm]
    refine ⟨fun c => ?_, List.Pairwise.nil, by simp [hterm]⟩
    simp [hterm]
  · have hlm : g.legal_moves =
        (List.range' 0 NUM_COLS).filter (fun i => decide (g.num_stones.getD (i - 0) 0 < NUM_ROWS)) := by
      rw [Game.legal_moves, if_neg hterm, List.enum, enumFrom_filter_map_eq, hlen]
    have hterm' : g.is_terminal = false := by
      cases hb : g.is_terminal
      · rfl
      · exact absurd hb hterm
    refine ⟨fun c => ?_, ?_, ?_⟩
    · rw [hlm, List.mem_filter]
      constructor
      · rintro ⟨hmem, hdec⟩
        obtain ⟨j, hj, rfl⟩ := List.mem_range'.mp hmem
        refine ⟨hterm', by omega, by simpa using hdec⟩
      · rintro ⟨-, hc, hh⟩
        refine ⟨List.mem_range'.mpr ⟨c, hc, by omega⟩, by simpa using hh⟩
    · rw [hlm]
      exact List.Pairwise.filter _ (by
        rw [← List.range_eq_range']
        exact List.sorted_lt_range NUM_COLS)
    · constructor
      · intro hempty
        exfalso
        have hsum42 : g.state.length ≠ NUM_COLS * NUM_ROWS := by
          intro hcontra
          apply hterm
          rw [Game.is_terminal, hcontra]
          simp
        obtain ⟨c, hc, hh⟩ := exists_open_col g.num_stones hlen hle (hsum ▸ hsum42)
        have hmem : c ∈ g.legal_moves := by
          rw [hlm, List.mem_filter]
          exact ⟨List.mem_range'.mpr ⟨c, hc, by omega⟩, by simpa using hh⟩
        rw [hempty] at hmem
        exact List.not_mem_nil c hmem
      · intro hcontra
        rw [hterm'] at hcontra
        exact absurd hcontra (by simp)

theorem c5_legal_moves_spec_witness :
    Reachable Game.new ∧
    (0 ∈ Game.new.legal_moves ↔
      (Game.new.is_terminal = false ∧ 0 < NUM_COLS ∧ Game.new.num_stones.getD 0 0 < NUM_ROWS)) ∧
    (Game.new.legal_moves = [] ↔ Game.new.is_terminal = true) := by
  have h := c5_legal_moves_spec Game.new Reachable.new
  exact ⟨Reachable.new, h.1 0, h.2.2⟩

theorem lookupCell_mem (k : Nat × Nat) (t : Token) (s : List ((Nat × Nat) × Token))
    (h : lookupCell k s = some t) : (k, t) ∈ s := by
  induction s with
  | nil => exact absurd h (by simp [lookupCell])
  | cons p s ih =>
    rw [lookupCell] at h
    by_cases hp : p.1 = k
    · rw [if_pos hp] at h
      obtain ⟨p1, p2⟩ := p
      obtain rfl : p1 = k := hp
      obtain rfl : p2 = t := by injection h
      exact List.mem_cons_self _ _
    · rw [if_neg hp] at h
      exact List.mem_cons_of_mem _ (ih h)

theorem ownAt_bound (g : Game)
    (hkeys : ∀ p ∈ g.state, p.1.2 < g.num_stones.getD p.1.1 0)
    (c r : Nat) (h : ownAt g c r = true) : r < g.num_stones.getD c 0 := by
  rw [ownAt, decide_eq_true_eq] at h
  exact hkeys ((c, r), Token.OWN) (lookupCell_mem _ _ _ h)

theorem ownAt_col_lt (g : Game)
    (hkeys : ∀ p ∈ g.state, p.1.2 < g.num_stones.getD p.1.1 0)
    (hlen : g.num_stones.length = NUM_COLS)
    (c r : Nat) (h : ownAt g c r = true) : c < NUM_COLS := by
  have hb := ownAt_bound g hkeys c r h
  have := lt_length_of_getD_pos g.num_stones c (by omega)
  omega

theorem check_horizontal_iff (g : Game)
    (hlen : g.num_stones.length = NUM_COLS)
    (hkeys : ∀ p ∈ g.state, p.1.2 < g.num_stones.getD p.1.1 0) :
    g.check_horizontal = true ↔ specHorizontalWin g := by
  have h7 : NUM_COLS = 7 := rfl
  rw [Game.check_horizontal, List.any_eq_true]
  constructor
  · rintro ⟨col, -, hinner⟩
    rw [List.any_eq_true] at hinner
    obtain ⟨row, -, hrow⟩ := hinner
    simp only [Bool.and_eq_true] at hrow
    exact ⟨col, row, hrow.1.1.1, hrow.1.1.2, hrow.1.2, hrow.2⟩
  · rintro ⟨c, r, h0, h1, h2, h3⟩
    have hb3 := ownAt_col_lt g hkeys hlen (c + 3) r h3
    have hb0 := ownAt_bound g hkeys c r h0
    refine ⟨c, List.mem_range.mpr (by omega), ?_⟩
    rw [List.any_eq_true]
    exact ⟨r, List.mem_range.mpr hb0, by simp [h0, h1, h2, h3]⟩

theorem check_vertical_iff (g : Game)
    (hlen : g.num_stones.length = NUM_COLS)
    (hkeys : ∀ p ∈ g.state, p.1.2 < g.num_stones.getD p.1.1 0) :
    g.check_vertical = true ↔ specVerticalWin g := by
  rw [Game.check_vertical, List.any_eq_true]
  constructor
  · rintro ⟨col, -, hinner⟩
    by_cases hguard : g.num_stones.getD col 0 ≤ 3
    · rw [if_pos hguard] at hinner
      exact absurd hinner (by simp)
    · rw [if_neg hguard, List.any_eq_true] at hinner
      obtain ⟨row, -, hrow⟩ := hinner
      simp only [Bool.and_eq_true] at hrow
      exact ⟨col, row, hrow.1.1.1, hrow.1.1.2, hrow.1.2, hrow.2⟩
  · rintro ⟨c, r, h0, h1, h2, h3⟩
    have hb3 := ownAt_bound g hkeys c (r + 3) h3
    have hcol := ownAt_col_lt g hkeys hlen c r h0
    refine ⟨c, List.mem_range.mpr hcol, ?_⟩
    rw [if_neg (by omega), List.any_eq_true]
    exact ⟨r, List.mem_range.mpr (by omega), by simp [h0, h1, h2, h3]⟩

theorem check_diag_rise_iff (g : Game)
    (hlen : g.num_stones.length = NUM_COLS)
    (hkeys : ∀ p ∈ g.state, p.1.2 < g.num_stones.getD p.1.1 0) :
    g.check_diag_rise = true ↔ specDiagRiseWin g := by
  rw [Game.check_diag_rise, List.any_eq_true]
  constructor
  · rintro ⟨col, -, hinner⟩
    rw [List.any_eq_true] at hinner
    obtain ⟨row, -, hrow⟩ := hinner
    simp only [Bool.and_eq_true] at hrow
    exact ⟨col, row, hrow.1.1.1, hrow.1.1.2, hrow.1.2, hrow.2⟩
  · rintro ⟨c, r, h0, h1, h2, h3⟩
    have hb3 := ownAt_col_lt g hkeys hlen (c + 3) (r + 3) h3
    have hb0 := ownAt_bound g hkeys c r h0
    refine ⟨c, List.mem_range.mpr (by omega), ?_⟩
    rw [List.any_eq_true]
    exact ⟨r, List.mem_range.mpr hb0, by simp [h0, h1, h2, h3]⟩

theorem check_diag_fall_iff (g : Game)
    (hlen : g.num_stones.length = NUM_COLS)
    (hkeys : ∀ p ∈ g.state, p.1.2 < g.num_stones.getD p.1.1 0) :
    g.check_diag_fall = true ↔ specDiagFallWin g := by
  rw [Game.check_diag_fall, List.any_eq_true]
  constructor
  · rintro ⟨col, -, hinner⟩
    by_cases hguard : g.num_stones.getD col 0 ≤ 3
    · rw [if_pos hguard] at hinner
      exact absurd hinner (by simp)
    · rw [if_neg hguard, List.any_eq_true] at hinner
      obtain ⟨row, hrowmem, hrow⟩ := hinner
      obtain ⟨j, hj, rfl⟩ := List.mem_range'.mp hrowmem
      simp only [Bool.and_eq_true] at hrow
      refine ⟨col, j, ?_, ?_, ?_, ?_⟩
      · rw [show j + 3 = 3 + 1 * j by omega]
        exact hrow.1.1.1
      · rw [show j + 2 = 3 + 1 * j - 1 by omega]
        exact hrow.1.1.2
      · rw [show j + 1 = 3 + 1 * j - 2 by omega]
        exact hrow.1.2
      · rw [show j = 3 + 1 * j - 3 by omega]
        exact hrow.2
  · rintro ⟨c, r, h0, h1, h2, h3⟩
    have hb0 := ownAt_bound g hkeys c (r + 3) h0
    have hcol := ownAt_col_lt g hkeys hlen (c + 3) r h3
    refine ⟨c, List.mem_range.mpr (by omega), ?_⟩
    rw [if_neg (by omega), List.any_eq_true]
    refine ⟨r + 3, List.mem_range'.mpr ⟨r, by omega, by omega⟩, ?_⟩
    simp only [Bool.and_eq_true]
    refine ⟨⟨⟨h0, ?_⟩, ?_⟩, ?_⟩
    · rw [show r + 3 - 1 = r + 2 by omega]
      exact h1
    · rw [show r + 3 - 2 = r + 1 by omega]
      exact h2
    · rw [show r + 3 - 3 = r by omega]
      exact h3

/-- C6: under the reachable-board key invariant, `is_win` is true exactly
when four `Own` cells are co-linear and contiguous in one of the four
scanned directions; in particular three drops into column 3 with no turn
switch do not win, and a fourth one does. -/
theorem c6_is_win_iff_four_in_a_row (g : Game)
    (hlen : g.num_stones.length = NUM_COLS)
    (hkeys : ∀ p ∈ g.state, p.1.2 < g.num_stones.getD p.1.1 0) :
    (g.is_win = true ↔ specWin g) ∧
    gameV3.is_win = false ∧ gameV4.is_win = true := by
  refine ⟨?_, by decide, by decide⟩
  rw [Game.is_win]
  simp only [Bool.or_eq_true]
  rw [check_horizontal_iff g hlen hkeys, check_vertical_iff g hlen hkeys,
    check_diag_rise_iff g hlen hkeys, check_diag_fall_iff g hlen hkeys, specWin]
  tauto

theorem c6_is_win_iff_four_in_a_row_witness :
    gameV4.num_stones.length = NUM_COLS ∧
    (∀ p ∈ gameV4.state, p.1.2 < gameV4.num_stones.getD p.1.1 0) ∧
    (gameV4.is_win = true ↔ specWin gameV4) := by
  refine ⟨by decide, by decide, (c6_is_win_iff_four_in_a_row gameV4 (by decide) (by decide)).1⟩

theorem play_move_isSome (g : Game) (col : Nat) (h : col < NUM_COLS) :
    (g.play_move col).isSome = true := by
  rw [Game.play_move, if_pos h]
  by_cases hful : NUM_ROWS ≤ g.num_stones.getD col 0 ∨ NUM_COLS ≤ col
  · rw [if_pos hful]
    rfl
  · rw [if_neg hful]
    rfl

theorem legal_moves_lt (g : Game) (m : Nat) (h : m ∈ g.legal_moves) :
    m < g.num_stones.length := by
  rw [Game.legal_moves] at h
  by_cases ht : g.is_terminal
  · rw [if_pos ht] at h
    exact absurd h (List.not_mem_nil m)
  · rw [if_neg ht, List.enum, enumFrom_filter_map_eq] at h
    obtain ⟨hmem, -⟩ := List.mem_filter.mp h
    obtain ⟨j, hj, rfl⟩ := List.mem_range'.mp hmem
    omega

theorem expandGo_spec (ms : List Nat) (node : Nat) (s : Game) :
    ∀ (t : Mcts), node < t.nodes.length → (t.nodeD node).state = s →
    (∀ m ∈ ms, m < NUM_COLS) →
    t.expandGo node ms = some (Mcts.mk
      (t.nodes ++ ms.map (childNode s))
      (t.edges ++ expandEdges node t.nodes.length ms)
      t.root) := by
  induction ms with
  | nil =>
    intro t _ _ _
    simp [Mcts.expandGo, expandEdges]
  | cons m ms ih =>
    intro t hnode hs hms
    have hm7 : m < NUM_COLS := hms m (List.mem_cons_self _ _)
    have haddc : t.addChild node m = some (Mcts.mk
        (t.nodes ++ [childNode s m])
        (t.edges ++ [(node, t.nodes.length, m)]) t.root) := by
      cases hp : (s.next_player).play_move m with
      | none =>
        have hsome := play_move_isSome s.next_player m hm7
        rw [hp] at hsome
        exact absurd hsome (by simp)
      | some pr =>
        have hcs : childNode s m = Node.new pr.2 := by
          rw [childNode]
          simp [childState, hp]
        simp only [Mcts.addChild, hs, hp, hcs]
    simp only [Mcts.expandGo, haddc]
    have hnode' : node < (t.nodes ++ [childNode s m]).length := by
      rw [List.length_append]
      omega
    have hs' : ((Mcts.mk (t.nodes ++ [childNode s m])
        (t.edges ++ [(node, t.nodes.length, m)]) t.root).nodeD node).state = s := by
      show ((t.nodes ++ [childNode s m]).getD node _).state = s
      rw [List.getD_append _ _ _ _ hnode]
      exact hs
    rw [ih _ hnode' hs' (fun x hx => hms x (List.mem_cons_of_mem _ hx))]
    show some _ = some _
    have hlen1 : (t.nodes ++ [childNode s m]).length = t.nodes.length + 1 := by
      rw [List.length_append]
      rfl
    rw [hlen1]
    simp [expandEdges, List.append_assoc]

/-- C8: for a valid tree node whose snapshot has a well-formed column
array, expansion with no legal move changes nothing and reports `false`;
with legal moves it appends exactly one child node per legal move — each
child's state obtained by cloning the snapshot, switching the turn and
dropping that move — together with one edge from the node to each fresh
child, labeled by the move, and reports `true`. -/
theorem c8_expand_spec (t : Mcts) (node : Nat)
    (hnode : node < t.nodes.length)
    (hlen : (t.nodeD node).state.num_stones.length = NUM_COLS) :
    ((t.nodeD node).state.legal_moves = [] → t.expand node = some (t, false)) ∧
    ((t.nodeD node).state.legal_moves ≠ [] → t.expand node = some
      (Mcts.mk
        (t.nodes ++ (t.nodeD node).state.legal_moves.map (childNode (t.nodeD node).state))
        (t.edges ++ expandEdges node t.nodes.length (t.nodeD node).state.legal_moves)
        t.root, true)) := by
  constructor
  · intro hempty
    rw [Mcts.expand, if_pos hempty]
  · intro hne
    rw [Mcts.expand, if_neg hne,
      expandGo_spec _ node (t.nodeD node).state t hnode rfl
        (fun m hm => hlen ▸ legal_moves_lt (t.nodeD node).state m hm)]
    rfl

theorem c8_expand_spec_witness :
    Mcts.new.expand 0 = some
      (Mcts.mk
        (Mcts.new.nodes ++
          (Mcts.new.nodeD 0).state.legal_moves.map (childNode (Mcts.new.nodeD 0).state))
        (Mcts.new.edges ++ expandEdges 0 Mcts.new.nodes.length (Mcts.new.nodeD 0).state.legal_moves)
        Mcts.new.root, true) :=
  (c8_expand_spec Mcts.new 0 (by decide) (by decide)).2 (by decide)

theorem qcompare_lt_iff (a b : ℚ) : qcompare a b = Ordering.lt ↔ a < b := by
  rw [qcompare]
  split_ifs with h1 h2
  · exact iff_of_true rfl h1
  · exact iff_of_false (by decide) (lt_asymm h2)
  · exact iff_of_false (by decide) h1

theorem qcompare_gt_iff (a b : ℚ) : qcompare a b = Ordering.gt ↔ b < a := by
  rw [qcompare]
  split_ifs with h1 h2
  · exact iff_of_false (by decide) (lt_asymm h1)
  · exact iff_of_true rfl h2
  · exact iff_of_false (by decide) h2

theorem qcompare_eq_iff (a b : ℚ) : qcompare a b = Ordering.eq ↔ a = b := by
  rw [qcompare]
  split_ifs with h1 h2
  · exact iff_of_false (by decide) (ne_of_lt h1)
  · exact iff_of_false (by decide) (ne_of_gt h2)
  · exact iff_of_true rfl (le_antisymm (le_of_not_lt h2) (le_of_not_lt h1))

theorem rustMaxByGo_total (cmp : Nat → Nat → Option Ordering) (u : Nat → ℚ)
    (ys : List Nat) :
    ∀ acc, (∀ a ∈ acc :: ys, ∀ b ∈ acc :: ys, cmp a b = some (qcompare (u a) (u b))) →
    rustMaxByGo cmp acc ys = some (ys.foldl (pickLater u) acc) := by
  induction ys with
  | nil => intro acc _; rfl
  | cons y ys ih =>
    intro acc hc
    have hcmp : cmp acc y = some (qcompare (u acc) (u y)) :=
      hc acc (List.mem_cons_self _ _) y (List.mem_cons_of_mem _ (List.mem_cons_self _ _))
    have hsub : ∀ a ∈ y :: ys, ∀ b ∈ y :: ys, cmp a b = some (qcompare (u a) (u b)) := by
      intro a ha b hb
      exact hc a (List.mem_cons_of_mem _ ha) b (List.mem_cons_of_mem _ hb)
    have hsubacc : ∀ a ∈ acc :: ys, ∀ b ∈ acc :: ys,
        cmp a b = some (qcompare (u a) (u b)) := by
      have hin : ∀ z, z ∈ acc :: ys → z ∈ acc :: y :: ys := by
        intro z hz
        rcases List.mem_cons.mp hz with rfl | hz'
        · exact List.mem_cons_self _ _
        · exact List.mem_cons_of_mem _ (List.mem_cons_of_mem _ hz')
      intro a ha b hb
      exact hc a (hin a ha) b (hin b hb)
    rw [List.foldl_cons]
    cases hord : qcompare (u acc) (u y) with
    | lt =>
      have hnotlt : ¬ u y < u acc := lt_asymm ((qcompare_lt_iff _ _).mp hord)
      simp only [rustMaxByGo, hcmp, hord]
      rw [show pickLater u acc y = y from if_neg hnotlt]
      exact ih y hsub
    | eq =>
      have heq := (qcompare_eq_iff _ _).mp hord
      have hnotlt : ¬ u y < u acc := by
        rw [heq]
        exact lt_irrefl _
      simp only [rustMaxByGo, hcmp, hord]
      rw [show pickLater u acc y = y from if_neg hnotlt]
      exact ih y hsub
    | gt =>
      have hlt := (qcompare_gt_iff _ _).mp hord
      simp only [rustMaxByGo, hcmp, hord]
      rw [show pickLater u acc y = acc from if_pos hlt]
      exact ih acc hsubacc

theorem find?_congr_strong (p q : Nat → Bool) (l : List Nat) (r : Nat)
    (h1 : l.find? p = some r) (h2 : q r = true) (h3 : ∀ d, q d = true → p d = true) :
    l.find? q = some r := by
  induction l with
  | nil => simp at h1
  | cons a l ih =>
    rw [List.find?_cons] at h1 ⊢
    cases hqa : q a with
    | false =>
      cases hpa : p a with
      | false =>
        rw [hpa] at h1
        exact ih h1
      | true =>
        rw [hpa] at h1
        injection h1 with hr
        rw [hr] at hqa
        rw [h2] at hqa
        exact absurd hqa (by decide)
    | true =>
      have hpa : p a = true := h3 a hqa
      rw [hpa] at h1
      exact h1

theorem foldl_pick_reverse (u : Nat → ℚ) (l : List Nat) :
    ∀ (x : Nat) (xs : List Nat), l.reverse = x :: xs →
      firstMaxBy u l = some (xs.foldl (pickLater u) x) := by
  induction l with
  | nil => intro x xs h; exact absurd h (by simp)
  | cons c l' ih =>
    intro x xs hrev
    rw [List.reverse_cons] at hrev
    cases hl' : l'.reverse with
    | nil =>
      rw [hl', List.nil_append] at hrev
      have hl'nil : l' = [] := by
        have := congrArg List.reverse hl'
        simpa using this
      injection hrev with hx hxs
      rw [← hx, ← hxs, firstMaxBy, hl'nil]
      have hself : ([c].all fun d => decide (u d ≤ u c)) = true := by
        rw [List.all_eq_true]
        intro d hd
        obtain rfl := List.mem_singleton.mp hd
        exact decide_eq_true le_rfl
      rw [List.find?_cons, hself]
      rfl
    | cons x' xs' =>
      rw [hl', List.cons_append] at hrev
      injection hrev with hx hxs
      rw [← hx, ← hxs]
      have hIH := ih x' xs' hl'
      rw [firstMaxBy] at hIH
      set r' := xs'.foldl (pickLater u) x' with hr'
      have hrmem : r' ∈ l' := List.mem_of_find?_eq_some hIH
      have hrall := List.find?_some hIH
      have hrall' : ∀ d ∈ l', u d ≤ u r' := by
        intro d hd
        have := List.all_eq_true.mp hrall d hd
        exact of_decide_eq_true this
      rw [List.foldl_append, List.foldl_cons, List.foldl_nil]
      by_cases hcase : u c < u r'
      · rw [show pickLater u r' c = r' from if_pos hcase]
        rw [firstMaxBy, List.find?_cons]
        have hpc : ((c :: l').all (fun d => decide (u d ≤ u c))) = false := by
          rw [Bool.eq_false_iff]
          intro hall
          have := of_decide_eq_true (List.all_eq_true.mp hall r' (List.mem_cons_of_mem _ hrmem))
          exact absurd this (not_le.mpr hcase)
        rw [hpc]
        exact find?_congr_strong _ _ l' r' hIH
          (by
            rw [List.all_eq_true]
            intro d hd
            rcases List.mem_cons.mp hd with rfl | hd'
            · exact decide_eq_true (le_of_lt hcase)
            · exact decide_eq_true (hrall' d hd'))
          (by
            intro d hd
            rw [List.all_eq_true] at hd ⊢
            intro e he
            exact hd e (List.mem_cons_of_mem _ he))
      · rw [show pickLater u r' c = c from if_neg hcase]
        rw [firstMaxBy, List.find?_cons]
        have hpc : ((c :: l').all (fun d => decide (u d ≤ u c))) = true := by
          rw [List.all_eq_true]
          intro d hd
          rcases List.mem_cons.mp hd with rfl | hd'
          · exact decide_eq_true le_rfl
          · exact decide_eq_true (le_trans (hrall' d hd') (le_of_not_lt hcase))
        rw [hpc]

theorem utility_fin (n : Node) (h : 0 < n.visits) :
    n.utility = F32.fin (n.value / n.visits) := by
  rw [Node.utility, fdiv, if_neg (ne_of_gt h)]

theorem findEdgeLabel_isSome (t : Mcts) (c : Nat) (hc : c ∈ t.childrenIns t.root) :
    ∃ lab, t.findEdgeLabel t.root c = some lab := by
  rw [Mcts.childrenIns] at hc
  obtain ⟨e, he, rfl⟩ := List.mem_map.mp hc
  obtain ⟨hee, hsrc⟩ := List.mem_filter.mp he
  have hsrc' : e.1 = t.root := of_decide_eq_true hsrc
  rw [Mcts.findEdgeLabel]
  have hfs : (t.edges.reverse.find?
      (fun e' => decide (e'.1 = t.root ∧ e'.2.1 = e.2.1))).isSome = true := by
    rw [List.find?_isSome]
    exact ⟨e, List.mem_reverse.mpr hee, decide_eq_true ⟨hsrc', rfl⟩⟩
  obtain ⟨e', he'⟩ := Option.isSome_iff_exists.mp hfs
  exact ⟨e'.2.2, by rw [he']; rfl⟩

theorem best_move_eq_spec (t : Mcts)
    (h1 : t.childrenIns t.root ≠ [])
    (h2 : ∀ c ∈ t.childrenIns t.root, 0 < (t.nodeD c).visits) :
    ∃ c lab, t.specBestChild = some c ∧ t.findEdgeLabel t.root c = some lab ∧
      t.best_move = some (lab, (t.nodeD c).utility) := by
  obtain ⟨x, xs, hrev⟩ : ∃ x xs, (t.childrenIns t.root).reverse = x :: xs := by
    cases hr : (t.childrenIns t.root).reverse with
    | nil =>
      have : t.childrenIns t.root = [] := by
        have := congrArg List.reverse hr
        simpa using this
      exact absurd this h1
    | cons a b => exact ⟨a, b, rfl⟩
  have hmemrev : ∀ y ∈ x :: xs, y ∈ t.childrenIns t.root := by
    intro y hy
    rw [← hrev] at hy
    exact List.mem_reverse.mp hy
  have hfin : ∀ y ∈ x :: xs, (t.nodeD y).utility = F32.fin (t.utilQ y) := by
    intro y hy
    exact utility_fin _ (h2 y (hmemrev y hy))
  have hcmps : ∀ a ∈ x :: xs, ∀ b ∈ x :: xs,
      F32.cmp (t.nodeD a).utility (t.nodeD b).utility =
        some (qcompare (t.utilQ a) (t.utilQ b)) := by
    intro a ha b hb
    rw [hfin a ha, hfin b hb]
    rfl
  have hgo := rustMaxByGo_total
    (fun a b => F32.cmp (t.nodeD a).utility (t.nodeD b).utility) t.utilQ xs x hcmps
  have hmax : rustMaxBy (fun a b => F32.cmp (t.nodeD a).utility (t.nodeD b).utility)
      (t.neighborsOut t.root) = some (some (xs.foldl (pickLater t.utilQ) x)) := by
    have hneigh : t.neighborsOut t.root = x :: xs := hrev
    rw [hneigh]
    simp only [rustMaxBy, hgo]
    rfl
  have hspec : t.specBestChild = some (xs.foldl (pickLater t.utilQ) x) :=
    foldl_pick_reverse t.utilQ (t.childrenIns t.root) x xs hrev
  have hmem : (xs.foldl (pickLater t.utilQ) x) ∈ t.childrenIns t.root := by
    have := List.mem_of_find?_eq_some (p := fun c => (t.childrenIns t.root).all
      (fun d => decide (t.utilQ d ≤ t.utilQ c))) hspec
    exact this
  obtain ⟨lab, hlab⟩ := findEdgeLabel_isSome t _ hmem
  refine ⟨xs.foldl (pickLater t.utilQ) x, lab, hspec, hlab, ?_⟩
  simp only [Mcts.best_move, hmax, hlab]

/-- C3: under the conditions in which the program calls it (the root has
been expanded and every child visited), `best_move` returns the edge
label and the utility of the root child with the highest utility, where
ties on the exact utility are broken in favour of the first child in
edge-insertion order: petgraph iterates neighbors newest-first and
`max_by` keeps the last of equal maxima, which is the first inserted. -/
theorem c3_best_move_spec (t : Mcts)
    (h1 : t.childrenIns t.root ≠ [])
    (h2 : ∀ c ∈ t.childrenIns t.root, 0 < (t.nodeD c).visits) :
    (∀ c ∈ t.childrenIns t.root, (t.nodeD c).utility = F32.fin (t.utilQ c)) ∧
    t.best_move = (t.specBestChild).bind (fun c =>
      (t.findEdgeLabel t.root c).map (fun lab => (lab, (t.nodeD c).utility))) := by
  obtain ⟨c, lab, hc, hlab, hbm⟩ := best_move_eq_spec t h1 h2
  refine ⟨fun d hd => utility_fin _ (h2 d hd), ?_⟩
  rw [hbm, hc, Option.some_bind, hlab, Option.map_some']

theorem c3_best_move_spec_witness :
    mctsTri.childrenIns mctsTri.root ≠ [] ∧
    mctsTri.best_move = some (1, F32.fin 1) := by
  refine ⟨by decide, ?_⟩
  have h := (c3_best_move_spec mctsTri (by decide) (by decide)).2
  rw [h]
  norm_num [Mcts.specBestChild, Mcts.childrenIns, mctsTri, Mcts.utilQ, Mcts.nodeD,
    Mcts.findEdgeLabel, Node.utility, fdiv, List.find?_cons, List.all_cons]

/-- C10: if the root has at least one child and every root child has a
positive visit count, `best_move` cannot panic: every utility involved is
a finite number (never the NaN `0.0 / 0.0` of an unvisited child), so
every `partial_cmp` in the maximum computation and both `unwrap`s
succeed. -/
theorem c10_best_move_no_panic (t : Mcts)
    (h1 : t.childrenIns t.root ≠ [])
    (h2 : ∀ c ∈ t.childrenIns t.root, 0 < (t.nodeD c).visits) :
    t.best_move ≠ none := by
  obtain ⟨c, lab, -, -, hbm⟩ := best_move_eq_spec t h1 h2
  rw [hbm]
  exact Option.some_ne_none _

theorem c10_best_move_no_panic_witness :
    mctsTri.childrenIns mctsTri.root ≠ [] ∧
    (∀ c ∈ mctsTri.childrenIns mctsTri.root, 0 < (mctsTri.nodeD c).visits) ∧
    mctsTri.best_move ≠ none :=
  ⟨by decide, by decide, c10_best_move_no_panic mctsTri (by decide) (by decide)⟩

/-- C7: a zero-visit node's `ucb` is exactly `f32::MAX`; a visited node's
`ucb` is `2·√(ln(parent.visits)/visits) + value/visits`; and whenever the
node has been visited at least once, its parent likewise (with a
representable visit count), and the accumulated value is bounded by the
visit count — all true of every node the program produces — the visited
`ucb` stays strictly below `f32::MAX`, so unexpanded children are always
preferred in selection. -/
theorem c7_ucb_spec (n parent : Node) :
    (n.visits = 0 → n.ucb parent = (F32MAX : ℝ)) ∧
    (n.visits ≠ 0 → n.ucb parent =
      2 * Real.sqrt (Real.log (parent.visits : ℝ) / (n.visits : ℝ)) +
        (n.value : ℝ) / (n.visits : ℝ)) ∧
    (1 ≤ n.visits → 1 ≤ parent.visits → parent.visits ≤ F32MAX →
      |n.value| ≤ n.visits → n.ucb parent < (F32MAX : ℝ)) := by
  refine ⟨fun h => by rw [Node.ucb, if_pos h], fun h => by rw [Node.ucb, if_neg h], ?_⟩
  intro hv hp hpmax hval
  have hv0 : n.visits ≠ 0 := by intro h0; rw [h0] at hv; norm_num at hv
  rw [Node.ucb, if_neg hv0]
  have hvR : (1 : ℝ) ≤ (n.visits : ℝ) := by exact_mod_cast hv
  have hpR : (1 : ℝ) ≤ (parent.visits : ℝ) := by exact_mod_cast hp
  have hpmaxR : (parent.visits : ℝ) ≤ ((F32MAX : ℚ) : ℝ) := by exact_mod_cast hpmax
  have hvalR : (n.value : ℝ) ≤ (n.visits : ℝ) := by
    exact_mod_cast le_trans (le_abs_self _) hval
  have hvpos : (0 : ℝ) < (n.visits : ℝ) := lt_of_lt_of_le one_pos hvR
  have hmaxlt : ((F32MAX : ℚ) : ℝ) < (2 : ℝ) ^ (128 : ℕ) := by
    push_cast [F32MAX]
    norm_num
  have hppos : (0 : ℝ) < (parent.visits : ℝ) := lt_of_lt_of_le one_pos hpR
  have hlog : Real.log (parent.visits : ℝ) < 89 := by
    have h1 : Real.log (parent.visits : ℝ) < Real.log ((2 : ℝ) ^ (128 : ℕ)) :=
      Real.log_lt_log hppos (lt_of_le_of_lt hpmaxR hmaxlt)
    have h2 : Real.log ((2 : ℝ) ^ (128 : ℕ)) = 128 * Real.log 2 := by
      rw [Real.log_pow]
      norm_num
    have h3 := Real.log_two_lt_d9
    rw [h2] at h1
    nlinarith
  have hdivle : Real.log (parent.visits : ℝ) / (n.visits : ℝ) ≤
      Real.log (parent.visits : ℝ) :=
    div_le_self (Real.log_nonneg hpR) hvR
  have hsqrt : Real.sqrt (Real.log (parent.visits : ℝ) / (n.visits : ℝ)) < 10 := by
    have hle : Real.sqrt (Real.log (parent.visits : ℝ) / (n.visits : ℝ)) ≤
        Real.sqrt 89 := Real.sqrt_le_sqrt (by linarith)
    have h89 : Real.sqrt 89 < 10 := by
      have h100 : (10 : ℝ) = Real.sqrt 100 := by
        rw [show (100 : ℝ) = 10 ^ 2 by norm_num, Real.sqrt_sq (by norm_num)]
      rw [h100]
      exact Real.sqrt_lt_sqrt (by norm_num) (by norm_num)
    linarith
  have hutil : (n.value : ℝ) / (n.visits : ℝ) ≤ 1 := (div_le_one hvpos).mpr hvalR
  have h21 : (21 : ℝ) < ((F32MAX : ℚ) : ℝ) := by
    push_cast [F32MAX]
    norm_num
  linarith

theorem modifyIdx_length (f : α → α) (n : Nat) (l : List α) :
    (modifyIdx f n l).length = l.length := by
  induction l generalizing n with
  | nil => cases n <;> rfl
  | cons a l ih =>
    cases n with
    | zero => rfl
    | succ m => simpa [modifyIdx] using ih m

/-- One unfolding step of `backprop`, with the node update written out. -/
theorem backprop_cons (t : Mcts) (n : Nat) (rest : List Nat) (v : ℚ) :
    t.backprop (n :: rest) v =
      Mcts.backprop
        (Mcts.mk
          (modifyIdx (fun nd : Node => Node.mk (nd.value + v) (nd.visits + 1) nd.state) n t.nodes)
          t.edges t.root)
        rest (-v) := rfl

theorem getD_modifyIdx_self (f : α → α) (n : Nat) (l : List α) (d : α)
    (h : n < l.length) : (modifyIdx f n l).getD n d = f (l.getD n d) := by
  induction l generalizing n with
  | nil => simp at h
  | cons a l ih =>
    cases n with
    | zero => rfl
    | succ m =>
      simp only [List.length_cons, Nat.succ_lt_succ_iff] at h
      exact ih m h

theorem getD_modifyIdx_ne (f : α → α) (n m : Nat) (l : List α) (d : α)
    (h : m ≠ n) : (modifyIdx f n l).getD m d = l.getD m d := by
  induction l generalizing n m with
  | nil => cases n <;> rfl
  | cons a l ih =>
    cases n with
    | zero =>
      cases m with
      | zero => exact absurd rfl h
      | succ j => rfl
    | succ i =>
      cases m with
      | zero => rfl
      | succ j => exact ih i j (fun hh => h (by simpa using hh))

theorem backprop_nodes_length (path : List Nat) (t : Mcts) (v : ℚ) :
    (t.backprop path v).nodes.length = t.nodes.length := by
  induction path generalizing t v with
  | nil => rfl
  | cons n rest ih =>
    simp only [Mcts.backprop]
    rw [ih]
    exact modifyIdx_length _ _ _

theorem backprop_nodeD_not_mem (path : List Nat) (t : Mcts) (v : ℚ) (m : Nat)
    (hm : m ∉ path) : (t.backprop path v).nodeD m = t.nodeD m := by
  induction path generalizing t v with
  | nil => rfl
  | cons n rest ih =>
    have hmn : m ≠ n := fun h => hm (h ▸ List.mem_cons_self n rest)
    have hmrest : m ∉ rest := fun h => hm (List.mem_cons_of_mem _ h)
    simp only [Mcts.backprop]
    rw [ih _ _ hmrest, Mcts.nodeD, Mcts.nodeD]
    exact getD_modifyIdx_ne _ _ _ _ _ hmn

theorem backprop_effect (path : List Nat) (t : Mcts) (v : ℚ)
    (hnd : path.Nodup) (hvalid : ∀ x ∈ path, x < t.nodes.length)
    (i : Nat) (hi : i < path.length) :
    ((t.backprop path v).nodeD (path.get ⟨i, hi⟩)).value =
      (t.nodeD (path.get ⟨i, hi⟩)).value + (-1 : ℚ) ^ i * v ∧
    ((t.backprop path v).nodeD (path.get ⟨i, hi⟩)).visits =
      (t.nodeD (path.get ⟨i, hi⟩)).visits + 1 := by
  induction path generalizing t v i with
  | nil => simp at hi
  | cons n rest ih =>
    have hnmem : n ∉ rest := (List.nodup_cons.mp hnd).1
    have hndrest : rest.Nodup := (List.nodup_cons.mp hnd).2
    have hn : n < t.nodes.length := hvalid n (List.mem_cons_self n rest)
    cases i with
    | zero =>
      have hget : (n :: rest).get ⟨0, hi⟩ = n := rfl
      rw [hget, backprop_cons, backprop_nodeD_not_mem rest _ (-v) n hnmem,
        Mcts.nodeD, Mcts.nodeD]
      show ((modifyIdx _ n t.nodes).getD n _).value = _ ∧
        ((modifyIdx _ n t.nodes).getD n _).visits = _
      rw [getD_modifyIdx_self _ _ _ _ hn]
      constructor
      · show (t.nodes.getD n _).value + v = _
        rw [pow_zero, one_mul]
      · rfl
    | succ j =>
      have hj : j < rest.length := by simpa using hi
      have hget : (n :: rest).get ⟨j + 1, hi⟩ = rest.get ⟨j, hj⟩ := rfl
      rw [hget, backprop_cons]
      have hvalid2 : ∀ x ∈ rest,
          x < (Mcts.mk
            (modifyIdx (fun nd : Node => Node.mk (nd.value + v) (nd.visits + 1) nd.state)
              n t.nodes) t.edges t.root).nodes.length := by
        intro x hx
        show x < (modifyIdx _ n t.nodes).length
        rw [modifyIdx_length]
        exact hvalid x (List.mem_cons_of_mem _ hx)
      obtain ⟨hval, hvis⟩ := ih _ (-v) hndrest hvalid2 j hj
      have hne : rest.get ⟨j, hj⟩ ≠ n := fun hh =>
        hnmem (hh ▸ List.get_mem rest _ hj)
      constructor
      · rw [hval, Mcts.nodeD, Mcts.nodeD, getD_modifyIdx_ne _ _ _ _ _ hne]
        ring
      · rw [hvis, Mcts.nodeD, Mcts.nodeD, getD_modifyIdx_ne _ _ _ _ _ hne]

/-- C2: the reward passed to backpropagation is `+1` exactly when the
rollout winner equals the root snapshot's current player, `-1` for the
other player, `0` on a draw; the selected path starts at the root; and
`backprop` walks the path in order, adding the alternating-sign reward
(`(-1)^i` at position `i`, so it is negated after every node) to each
node's value and one to its visits, while every node off the path is
untouched. -/
theorem c2_backprop_reward :
    (∀ (t : Mcts) (w : Player), t.rewardValue (some w) =
      (if w = (t.nodeD t.root).state.current_player then 1 else -1)) ∧
    (∀ t : Mcts, t.rewardValue none = 0) ∧
    (∀ (t : Mcts) (pick : Nat → Option Nat) (fuel : Nat),
      (t.select pick fuel).head? = some t.root) ∧
    (∀ (t : Mcts) (path : List Nat) (v : ℚ),
      path.Nodup → (∀ x ∈ path, x < t.nodes.length) →
      (∀ i (hi : i < path.length),
        ((t.backprop path v).nodeD (path.get ⟨i, hi⟩)).value =
          (t.nodeD (path.get ⟨i, hi⟩)).value + (-1 : ℚ) ^ i * v ∧
        ((t.backprop path v).nodeD (path.get ⟨i, hi⟩)).visits =
          (t.nodeD (path.get ⟨i, hi⟩)).visits + 1) ∧
      (∀ m, m ∉ path → (t.backprop path v).nodeD m = t.nodeD m)) := by
  refine ⟨fun t w => rfl, fun t => rfl, fun t pick fuel => rfl,
    fun t path v hnd hvalid => ⟨backprop_effect path t v hnd hvalid,
      fun m hm => backprop_nodeD_not_mem path t v m hm⟩⟩

theorem c2_backprop_reward_witness :
    mctsPair.rewardValue none = 0 ∧
    [0, 1].Nodup ∧
    ((mctsPair.backprop [0, 1] 1).nodeD 1).value =
      (mctsPair.nodeD 1).value + (-1 : ℚ) ^ 1 * 1 ∧
    (mctsPair.backprop [0, 1] 1).nodeD 2 = mctsPair.nodeD 2 := by
  have h := c2_backprop_reward
  refine ⟨h.2.1 mctsPair, by decide, ?_, ?_⟩
  · exact (h.2.2.2 mctsPair [0, 1] 1 (by decide) (by decide)).1 1 (by decide) |>.1
  · exact (h.2.2.2 mctsPair [0, 1] 1 (by decide) (by decide)).2 2 (by decide)

theorem c7_ucb_spec_witness :
    Node.ucb (Node.new Game.new) (Node.new Game.new) = (F32MAX : ℝ) ∧
    Node.ucb { value := 0, visits := 1, state := Game.new }
      { value := 0, visits := 1, state := Game.new } < (F32MAX : ℝ) := by
  refine ⟨(c7_ucb_spec _ _).1 rfl, (c7_ucb_spec _ _).2.2 (by norm_num) (by norm_num)
    (by norm_num [F32MAX]) (by norm_num)⟩
